import Mathlib

/-!
# dtracker `provlog.H`: descriptor identity map and raw provenance emitter

A shallow embedding of `src/provlog.H`:

* `PROVLOG.UFDMap` with `operator[]` and `del`, over 32-bit unsigned `ufd_t`
  arithmetic (natural numbers, with the increment taken modulo `2 ^ 32`);
* the inline emitters writing to `rawProvStream`, as functions returning the
  records appended to the stream, one string per `std::endl`.
-/

set_option autoImplicit false

namespace PROVLOG

/-! ## Data types -/

/-- `#define MAX_OPEN_FILES 1024`. -/
@[reducible] def MAX_OPEN_FILES : Nat := 1024

/-- Number of values of a `UINT32`. `typedef UINT32 ufd_t;` is embedded as `Nat`
holding values below `UINT32_SIZE`, with arithmetic modulo `UINT32_SIZE`. -/
def UINT32_SIZE : Nat := 4294967296

/-- A valid index of `std::array<ufd_t, MAX_OPEN_FILES>`. -/
abbrev Slot : Type := Fin MAX_OPEN_FILES

/-- The data members of `class UFDMap`: `ufd_t next` and
`std::array<ufd_t, MAX_OPEN_FILES> map`. -/
structure UFDMap where
  next : Nat
  map : Slot → Nat

namespace UFDMap

/-- The object `ufdmap` at program start: `next = 1` by its default member
initializer; `map` has no initializer and the object has static storage
duration (`extern UFDMap ufdmap;`), so every slot is zero-initialized. -/
def init : UFDMap := ⟨1, fun _ => 0⟩

/-- Every stored value fits in a `UINT32`. -/
def WellFormed (s : UFDMap) : Prop :=
  s.next < UINT32_SIZE ∧ ∀ i, s.map i < UINT32_SIZE

/-- Body of `ufd_t operator[](int fd)` when `fd` is a valid index:
```
if (this->map[fd] == 0)
    this->map[fd] = this->next++;
return this->map[fd];
```
Returns the value and the state after the call. -/
def identityOf (s : UFDMap) (fd : Slot) : Nat × UFDMap :=
  let s1 : UFDMap :=
    if s.map fd = 0 then
      { next := (s.next + 1) % UINT32_SIZE, map := Function.update s.map fd s.next }
    else s
  (s1.map fd, s1)

/-- Body of `ufd_t del(int fd)` when `fd` is a valid index:
```
ufd_t ufd = map[fd];
map[fd] = 0;
return ufd;
```
-/
def release (s : UFDMap) (fd : Slot) : Nat × UFDMap :=
  let ufd := s.map fd
  (ufd, { s with map := Function.update s.map fd 0 })

end UFDMap

/-- The exception a range-checked accessor such as `std::array::at` raises. -/
inductive Exception where
  | out_of_range
  deriving DecidableEq, Repr

/-- How a call of a member function taking a raw `int fd` can end. The source
contains no `throw` and no range test; `std::array::operator[]` with an index
outside `[0, MAX_OPEN_FILES)` has undefined behaviour. -/
inductive Outcome where
  | returns (value : Nat) (state : UFDMap)
  | throws (e : Exception) (state : UFDMap)
  | undefined

/-- Conversion of a raw `int` descriptor to an index of the array, when it is
one. -/
def toSlot (fd : Int) : Option Slot :=
  if h : 0 ≤ fd ∧ fd < (MAX_OPEN_FILES : Int) then
    some ⟨fd.toNat, by
      have h2 := h.2
      have h1 := h.1
      omega⟩
  else none

/-- `ufd_t UFDMap::operator[](int fd)`: unchecked indexing of `map`. -/
def UFDMap.index (s : UFDMap) (fd : Int) : Outcome :=
  match toSlot fd with
  | some i => Outcome.returns (s.identityOf i).1 (s.identityOf i).2
  | none => Outcome.undefined

/-- `ufd_t UFDMap::del(int fd)`: unchecked indexing of `map`. -/
def UFDMap.del (s : UFDMap) (fd : Int) : Outcome :=
  match toSlot fd with
  | some i => Outcome.returns (s.release i).1 (s.release i).2
  | none => Outcome.undefined

/-! ## Call sequences -/

/-- A call on the descriptor identity map with an in-range descriptor. -/
inductive Call where
  | identityOf (fd : Slot)
  | release (fd : Slot)
  deriving DecidableEq

/-- One call: returned value and next state. -/
def step (s : UFDMap) : Call → Nat × UFDMap
  | Call.identityOf fd => s.identityOf fd
  | Call.release fd => s.release fd

/-- State after a sequence of calls. -/
def run (s : UFDMap) : List Call → UFDMap
  | [] => s
  | c :: cs => run (step s c).2 cs

/-- Whether a call allocates a fresh identity in state `s`: it is a lookup of
a slot holding `0`. -/
def allocates (s : UFDMap) : Call → Bool
  | Call.identityOf fd => decide (s.map fd = 0)
  | Call.release _ => false

/-- The identities freshly issued during a sequence of calls, in order: the
values returned by the lookups that found their slot at `0`. -/
def issued (s : UFDMap) : List Call → List Nat
  | [] => []
  | c :: cs =>
    if allocates s c then (step s c).1 :: issued (step s c).2 cs
    else issued (step s c).2 cs

/-- The sequence `identityOf fd; release fd` repeated `n` times. -/
def churn (fd : Slot) : Nat → List Call
  | 0 => []
  | n + 1 => Call.identityOf fd :: Call.release fd :: churn fd n

/-! ## Invariant and the call sequences used below -/

/-- State invariant after `n` fresh allocations from the initial map, `n`
below `2 ^ 32`: the counter is `n + 1` in 32-bit arithmetic, every slot holds
at most `n`, and assigned slots hold pairwise different identities. -/
structure Inv (s : UFDMap) (n : Nat) : Prop where
  bound : n < UINT32_SIZE
  next_eq : s.next = (n + 1) % UINT32_SIZE
  slot_le : ∀ i, s.map i ≤ n
  distinct : ∀ i j, i ≠ j → s.map i ≠ 0 → s.map i ≠ s.map j

/-- Calls that wrap the counter once: descriptor `0` is looked up and released,
descriptor `1` is looked up and released `2 ^ 32 - 1` times, then descriptor
`0` is looked up again. -/
def reuseCalls : List Call :=
  churn 0 1 ++ churn 1 4294967295 ++ [Call.identityOf 0]

/-- Calls after which two open descriptors share an identity: descriptor `0`
is looked up, descriptor `1` is looked up and released `2 ^ 32 - 1` times, then
descriptor `1` is looked up once more. -/
def clashCalls : List Call :=
  [Call.identityOf 0] ++ churn 1 4294967295 ++ [Call.identityOf 1]

/-- Calls whose last lookup is the `2 ^ 32`-th fresh allocation. -/
def wrapCalls : List Call :=
  churn 0 4294967295 ++ [Call.identityOf 0]

/-- A state whose counter holds the largest `UINT32` and whose slots are all
unassigned. -/
def maxCounterState : UFDMap := ⟨4294967295, fun _ => 0⟩

/-- Descriptor `fd` has been looked up with `identityOf` and not released
since, given that `b` said so before the calls. -/
def lookedUpSince (fd : Slot) (b : Bool) : List Call → Bool
  | [] => b
  | Call.identityOf g :: cs => lookedUpSince fd (b || decide (g = fd)) cs
  | Call.release g :: cs => lookedUpSince fd (b && !decide (g = fd)) cs

/-- Descriptor `fd` has a pending lookup at the end of `calls`: some
`identityOf fd` in `calls` is not followed by a `release fd`. -/
def lookedUp (fd : Slot) (calls : List Call) : Bool :=
  lookedUpSince fd false calls

/-! ## Raw provenance emitter -/

/-- The `<fcntl.h>` constants `open` tests; their values are not part of the
repository and are taken as parameters. -/
structure Fcntl where
  O_WRONLY : Int
  O_RDWR : Int
  O_TRUNC : Int

/-- The values of the constants on Linux. -/
def Fcntl.linux : Fcntl := ⟨1, 2, 512⟩

/-- `static inline void open(const ufd_t ufd, const std::string & fdname,
const int flags, const int created)`: the records written to `rawProvStream`,
in order, one string per `<< std::endl`. `exename` is the global of that name.
`flags & X` is `Int.land`, `X | Y` is `Int.lor`, and an `int` condition holds
when it is not `0`. -/
def emitOpen (F : Fcntl) (exename : String) (ufd : Nat) (fdname : String)
    (flags created : Int) : List String :=
  let out := ["o:ufd" ++ toString ufd ++ ":" ++ fdname]
  let out :=
    if Int.land flags F.O_WRONLY = 0 then
      out ++ ["u:" ++ exename ++ ":" ++ fdname]
    else out
  if Int.land flags (Int.lor F.O_WRONLY F.O_RDWR) ≠ 0 then
    if created ≠ 0 then
      out ++ ["#g:created"] ++ ["g:c:" ++ exename ++ ":" ++ fdname]
    else if Int.land flags F.O_TRUNC ≠ 0 then
      out ++ ["#g:truncated"] ++ ["g:t:" ++ exename ++ ":" ++ fdname]
    else
      out ++ ["#g:updated"] ++ ["g:u:" ++ exename ++ ":" ++ fdname]
  else out

/-- The characters of `p` are the first characters of `l`. -/
def startsWith (p l : String) : Bool :=
  List.isPrefixOf p.data l.data

/-- A generation record: one starting with `g:c:`, `g:t:` or `g:u:`. -/
def isGenerationLine (l : String) : Bool :=
  startsWith "g:c:" l || startsWith "g:t:" l || startsWith "g:u:" l

/-- The descriptor is opened for writing: `flags` has a bit of `O_WRONLY` or a
bit of `O_RDWR`. -/
@[reducible] def opensForWriting (F : Fcntl) (flags : Int) : Prop :=
  Int.land flags F.O_WRONLY ≠ 0 ∨ Int.land flags F.O_RDWR ≠ 0

/-- The `enum {NONE, SEQ, REP} type` member of `range_info_t`. -/
inductive RangeType where
  | NONE
  | SEQ
  | REP
  deriving DecidableEq, Repr

/-- `range_type_strings[] = { "NONE", "SEQ", "REP" }`, indexed by the
enumerator. -/
def range_type_strings : RangeType → String
  | RangeType.NONE => "NONE"
  | RangeType.SEQ => "SEQ"
  | RangeType.REP => "REP"

/-- A value fits `off_t` and `ssize_t`, which are 64-bit signed integers
(`long` on x86-64 Linux). -/
@[reducible] def fitsInt64 (x : Int) : Prop :=
  -9223372036854775808 ≤ x ∧ x < 9223372036854775808

/-- The `off_t`/`ssize_t` value of an arithmetic operation whose exact result
is `x`: the result reduced modulo `2 ^ 64` into `[-2 ^ 63, 2 ^ 63)`. -/
def wrapInt64 (x : Int) : Int :=
  (x + 9223372036854775808) % 18446744073709551616 - 9223372036854775808

/-- `range_info_t`: `type`, and the `ssize_t` members `start` and `length`,
which hold integers that fit 64 bits (`fitsInt64`); arithmetic on them is
64-bit signed (`wrapInt64`). -/
structure range_info_t where
  type : RangeType
  start : Int
  length : Int

/-- Modelled from the spec: `range_map_t::key_type`, that is
`tag_traits<tag_t>::inner_type`, is declared outside the repository's sources.
It is the source anchor `(StableId, offset)` of the spec, read by `write_range`
as `last.first` and `last.second`; the offset is taken as a 64-bit signed
integer like `off_t`. -/
structure SourceAnchor where
  first : Nat
  second : Int

/-- `static inline void close(const ufd_t ufd)`: the record written to
`rawProvStream`. -/
def close (ufd : Nat) : List String :=
  ["c:ufd" ++ toString ufd]

/-- `static inline void exec(const std::string & exename, pid_t pid)`: the
record written to `rawProvStream`; `pid_t` is a signed integer. -/
def exec (exename : String) (pid : Int) : List String :=
  ["x:" ++ toString pid ++ ":" ++ exename]

/-- `static inline void write(const ufd_t ufd_origin, const ufd_t ufd_dest,
const off_t write_begin, const off_t length)` (under `USE_LIBDFT_TAG_BITSET`):
the record written to `rawProvStream`. -/
def write (ufd_origin ufd_dest : Nat) (write_begin length : Int) : List String :=
  let range_type :=
    if length > 1 then range_type_strings RangeType.REP
    else range_type_strings RangeType.NONE
  ["w:" ++ range_type ++
    ":ufd" ++ toString ufd_dest ++ ":" ++ toString write_begin ++
    ":ufd" ++ toString ufd_origin ++ ":" ++ toString (0 : Int) ++
    ":" ++ toString length]

/-- `static inline void write_range(const ufd_t ofd, const off_t write_begin,
const range_map_t::key_type last, const range_map_t::mapped_type & info)`
(under `USE_LIBDFT_TAG_SET_FDOFF`): the record written to `rawProvStream` by
the `switch` on `info.type`. The sums `write_begin+info.start`,
`info.length-1` and `last.second-(info.length-1)` are 64-bit signed
operations. -/
def write_range (ofd : Nat) (write_begin : Int) (last : SourceAnchor)
    (info : range_info_t) : List String :=
  match info.type with
  | RangeType.SEQ =>
    ["w:" ++ range_type_strings info.type ++
      ":ufd" ++ toString ofd ++ ":" ++ toString (wrapInt64 (write_begin + info.start)) ++
      ":ufd" ++ toString last.first ++ ":" ++
        toString (wrapInt64 (last.second - wrapInt64 (info.length - 1))) ++
      ":" ++ toString info.length]
  | RangeType.NONE | RangeType.REP =>
    ["w:" ++ range_type_strings info.type ++
      ":ufd" ++ toString ofd ++ ":" ++ toString (wrapInt64 (write_begin + info.start)) ++
      ":ufd" ++ toString last.first ++ ":" ++ toString last.second ++
      ":" ++ toString info.length]

/-- The globals of the tool that the map and the emitters work on: the object
`ufdmap` and the records written to `rawProvStream` so far. -/
structure Globals where
  ufdmap : UFDMap
  rawProvStream : List String

/-- A call of `PROVLOG::close(ufd)` as a step on the globals: the body only
writes to `rawProvStream`. -/
def Globals.close (g : Globals) (ufd : Nat) : Globals :=
  { g with rawProvStream := g.rawProvStream ++ PROVLOG.close ufd }

/-- The colon-separated fields of a record. -/
def fields (l : String) : List (List Char) :=
  l.data.splitOn ':'

/-! ## Basic facts about single calls -/

theorem identityOf_assigned (s : UFDMap) (fd : Slot) (h : s.map fd ≠ 0) :
    s.identityOf fd = (s.map fd, s) := by
  simp [UFDMap.identityOf, h]

theorem identityOf_unassigned (s : UFDMap) (fd : Slot) (h : s.map fd = 0) :
    s.identityOf fd =
      (s.next, { next := (s.next + 1) % UINT32_SIZE,
                 map := Function.update s.map fd s.next }) := by
  simp [UFDMap.identityOf, h]

theorem release_unassigned (s : UFDMap) (fd : Slot) (h : s.map fd = 0) :
    s.release fd = (0, s) := by
  cases s with
  | mk next map =>
    simp only [UFDMap.release] at h ⊢
    rw [h, ← h, Function.update_eq_self]

theorem run_append (s : UFDMap) (xs ys : List Call) :
    run s (xs ++ ys) = run (run s xs) ys := by
  induction xs generalizing s with
  | nil => rfl
  | cons c cs ih => simp [run, ih]

theorem issued_append (s : UFDMap) (xs ys : List Call) :
    issued s (xs ++ ys) = issued s xs ++ issued (run s xs) ys := by
  induction xs generalizing s with
  | nil => rfl
  | cons c cs ih =>
    by_cases h : allocates s c <;> simp [issued, run, ih, h]

/-- One round `identityOf fd; release fd` on an empty slot only advances the
counter. -/
theorem churn_round (s : UFDMap) (fd : Slot) (h : s.map fd = 0) :
    (((s.identityOf fd).2).release fd).2 =
      { next := (s.next + 1) % UINT32_SIZE, map := s.map } := by
  rw [identityOf_unassigned s fd h]
  simp only [UFDMap.release, Function.update_idem]
  rw [← h, Function.update_eq_self]

theorem run_churn (fd : Slot) (n : Nat) (s : UFDMap) (h : s.map fd = 0)
    (hn : s.next < UINT32_SIZE) :
    run s (churn fd n) = { next := (s.next + n) % UINT32_SIZE, map := s.map } := by
  induction n generalizing s with
  | zero =>
    simp [churn, run, Nat.mod_eq_of_lt hn]
  | succ n ih =>
    simp only [churn, run, step]
    rw [churn_round s fd h,
      ih { next := (s.next + 1) % UINT32_SIZE, map := s.map } h
        (Nat.mod_lt _ (by decide))]
    have e : ((s.next + 1) % UINT32_SIZE + n) % UINT32_SIZE
        = (s.next + (n + 1)) % UINT32_SIZE := by
      simp only [UINT32_SIZE]
      omega
    simp only [e]

theorem issued_churn_length (fd : Slot) (n : Nat) (s : UFDMap) (h : s.map fd = 0) :
    (issued s (churn fd n)).length = n := by
  induction n generalizing s with
  | zero => rfl
  | succ n ih =>
    have ha : allocates s (Call.identityOf fd) = true := by simp [allocates, h]
    have hr : allocates (s.identityOf fd).2 (Call.release fd) = false := rfl
    simp only [churn, issued, ha, hr, if_true, Bool.false_eq_true, if_false, step,
      List.length_cons]
    rw [churn_round s fd h,
      ih { next := (s.next + 1) % UINT32_SIZE, map := s.map } h]

/-! ## The counter and the issued identities along a call sequence -/

theorem step_not_allocates (s : UFDMap) (c : Call) (h : allocates s c = false) :
    (step s c).2.next = s.next := by
  cases c with
  | identityOf fd =>
    have h0 : s.map fd ≠ 0 := by simpa [allocates] using h
    simp [step, identityOf_assigned s fd h0]
  | release fd => rfl

theorem step_allocates (s : UFDMap) (c : Call) (h : allocates s c = true) :
    (step s c).1 = s.next ∧ (step s c).2.next = (s.next + 1) % UINT32_SIZE := by
  cases c with
  | identityOf fd =>
    have h0 : s.map fd = 0 := by simpa [allocates] using h
    simp [step, identityOf_unassigned s fd h0]
  | release fd => simp [allocates] at h

/-- The counter after a call sequence is the initial counter plus the number
of fresh allocations, modulo `2 ^ 32`. -/
theorem run_next (calls : List Call) (s : UFDMap) (hn : s.next < UINT32_SIZE) :
    (run s calls).next = (s.next + (issued s calls).length) % UINT32_SIZE := by
  induction calls generalizing s with
  | nil => simp [run, issued, Nat.mod_eq_of_lt hn]
  | cons c cs ih =>
    by_cases h : allocates s c = true
    · obtain ⟨_, h2⟩ := step_allocates s c h
      have hlt : (step s c).2.next < UINT32_SIZE := by
        rw [h2]; exact Nat.mod_lt _ (by decide)
      simp only [run, issued, h, if_true, List.length_cons]
      rw [ih _ hlt, h2]
      simp only [UINT32_SIZE]
      omega
    · have h' : allocates s c = false := by simpa using h
      have h2 := step_not_allocates s c h'
      simp only [run, issued, h', Bool.false_eq_true, if_false]
      rw [ih _ (by rw [h2]; exact hn), h2]

/-- The `k`-th fresh identity (counting from `0`) is the initial counter plus
`k`, modulo `2 ^ 32`. -/
theorem issued_eq_map_range (calls : List Call) (s : UFDMap)
    (hn : s.next < UINT32_SIZE) :
    issued s calls =
      (List.range (issued s calls).length).map (fun k => (s.next + k) % UINT32_SIZE) := by
  induction calls generalizing s with
  | nil => simp [issued]
  | cons c cs ih =>
    by_cases h : allocates s c = true
    · obtain ⟨h1, h2⟩ := step_allocates s c h
      have hlt : (step s c).2.next < UINT32_SIZE := by
        rw [h2]; exact Nat.mod_lt _ (by decide)
      simp only [issued, h, if_true, List.length_cons]
      rw [List.range_succ_eq_map, List.map_cons, List.map_map, h1]
      congr 1
      · simp [Nat.mod_eq_of_lt hn]
      · conv_lhs => rw [ih _ hlt]
        apply List.map_congr_left
        intro k _
        simp only [h2, Function.comp, UINT32_SIZE]
        omega
    · have h' : allocates s c = false := by simpa using h
      have h2 := step_not_allocates s c h'
      simp only [issued, h', Bool.false_eq_true, if_false]
      conv_lhs => rw [ih _ (by rw [h2]; exact hn)]
      rw [h2]

theorem issued_getElem (calls : List Call) (s : UFDMap) (hn : s.next < UINT32_SIZE)
    (k : Nat) (hk : k < (issued s calls).length) :
    (issued s calls)[k] = (s.next + k) % UINT32_SIZE := by
  have e := issued_eq_map_range calls s hn
  have hk2 : k < ((List.range (issued s calls).length).map
      (fun k => (s.next + k) % UINT32_SIZE)).length := by simpa using hk
  have : (issued s calls)[k] = ((List.range (issued s calls).length).map
      (fun k => (s.next + k) % UINT32_SIZE))[k] := by
    congr 1
  rw [this]
  simp

/-! ## Invariant of the map while the counter has not wrapped -/

theorem inv_init : Inv UFDMap.init 0 where
  bound := by decide
  next_eq := by decide
  slot_le := fun _ => Nat.le_refl 0
  distinct := fun _ _ _ h => absurd rfl h

theorem inv_release (s : UFDMap) (n : Nat) (fd : Slot) (h : Inv s n) :
    Inv (s.release fd).2 n where
  bound := h.bound
  next_eq := h.next_eq
  slot_le := by
    intro i
    by_cases e : i = fd
    · subst e; simp [UFDMap.release]
    · simpa [UFDMap.release, Function.update_noteq e] using h.slot_le i
  distinct := by
    intro i j hij hi
    by_cases e : i = fd
    · subst e; simp [UFDMap.release] at hi
    · have hi2 : s.map i ≠ 0 := by
        simpa [UFDMap.release, Function.update_noteq e] using hi
      by_cases e2 : j = fd
      · subst e2
        simpa [UFDMap.release, Function.update_noteq e] using hi2
      · simpa [UFDMap.release, Function.update_noteq e, Function.update_noteq e2]
          using h.distinct i j hij hi2

theorem inv_allocate (s : UFDMap) (n : Nat) (fd : Slot) (h : Inv s n)
    (h0 : s.map fd = 0) (hn : n + 1 < UINT32_SIZE) :
    Inv (s.identityOf fd).2 (n + 1) := by
  have hnext : s.next = n + 1 := by
    rw [h.next_eq]; exact Nat.mod_eq_of_lt hn
  rw [identityOf_unassigned s fd h0]
  refine ⟨hn, ?_, ?_, ?_⟩
  · simp only [hnext]
  · intro i
    by_cases e : i = fd
    · subst e; simp [hnext]
    · have := h.slot_le i
      simp only [Function.update_noteq e]
      omega
  · intro i j hij hi
    by_cases e : i = fd
    · subst e
      have e2 : j ≠ i := fun x => hij x.symm
      have := h.slot_le j
      simp only [Function.update_same, Function.update_noteq e2, hnext]
      omega
    · have hi2 : s.map i ≠ 0 := by simpa [Function.update_noteq e] using hi
      by_cases e2 : j = fd
      · subst e2
        have := h.slot_le i
        simp only [Function.update_same, Function.update_noteq e, hnext]
        omega
      · simpa [Function.update_noteq e, Function.update_noteq e2]
          using h.distinct i j hij hi2

theorem inv_run (calls : List Call) (s : UFDMap) (n : Nat) (h : Inv s n)
    (hn : n + (issued s calls).length < UINT32_SIZE) :
    Inv (run s calls) (n + (issued s calls).length) := by
  induction calls generalizing s n with
  | nil => simpa [run, issued] using h
  | cons c cs ih =>
    cases c with
    | identityOf fd =>
      by_cases h0 : s.map fd = 0
      · have ha : allocates s (Call.identityOf fd) = true := by simp [allocates, h0]
        simp only [issued, ha, if_true, List.length_cons, step] at hn ⊢
        have h1 := inv_allocate s n fd h h0 (by omega)
        have := ih (s.identityOf fd).2 (n + 1) h1 (by omega)
        simpa [run, step, Nat.add_assoc, Nat.add_comm 1] using this
      · have ha : allocates s (Call.identityOf fd) = false := by simp [allocates, h0]
        simp only [issued, ha, Bool.false_eq_true, if_false, step] at hn ⊢
        have e : (s.identityOf fd).2 = s := by rw [identityOf_assigned s fd h0]
        rw [e] at hn ⊢
        simpa [run, step, e] using ih s n h hn
    | release fd =>
      have ha : allocates s (Call.release fd) = false := rfl
      simp only [issued, ha, Bool.false_eq_true, if_false, step] at hn ⊢
      simpa [run, step] using ih (s.release fd).2 n (inv_release s n fd h) hn

/-! ## C1: issuance order -/

theorem run_reuse_head :
    run UFDMap.init (churn 0 1 ++ churn 1 4294967295) = UFDMap.init := by
  rw [run_append, run_churn 0 1 UFDMap.init rfl (by decide),
    run_churn 1 4294967295 _ rfl (Nat.mod_lt _ (by decide))]
  simp only [UFDMap.init, UINT32_SIZE]

/-- C1, as stated, fails: in `reuseCalls` the first lookup of descriptor `0`
is issued identity `1`, that identity is retired by the release, and after the
counter has wrapped the final lookup of descriptor `0` is issued `1` again, so
the issued identities are not strictly increasing. -/
theorem C1_reuse_after_wrap :
    (step UFDMap.init (Call.identityOf 0)).1 = 1 ∧
    (step (run UFDMap.init [Call.identityOf 0]) (Call.release 0)).1 = 1 ∧
    (step (run UFDMap.init (churn 0 1 ++ churn 1 4294967295)) (Call.identityOf 0)).1 = 1 ∧
    ¬ (issued UFDMap.init reuseCalls).Pairwise (fun a b => a < b) := by
  refine ⟨by decide, by decide, ?_, ?_⟩
  · rw [run_reuse_head]; decide
  · intro hp
    have e : issued UFDMap.init reuseCalls
        = (1 :: issued (run UFDMap.init (churn 0 1)) (churn 1 4294967295)) ++ [1] := by
      rw [reuseCalls, issued_append, run_reuse_head, issued_append]
      rfl
    rw [e, List.pairwise_append] at hp
    exact absurd (hp.2.2 1 (List.mem_cons_self _ _) 1 (List.mem_singleton_self 1))
      (Nat.lt_irrefl 1)

/-- C1, amended: along every call sequence from the initial map that issues
fewer than `2 ^ 32` fresh identities, the issued identities are strictly
increasing; and when such a sequence ends with `release fd; identityOf fd`,
the identity issued by that lookup is strictly greater than the one the
release retired. -/
theorem C1_issued_strictly_increasing (calls : List Call)
    (h : (issued UFDMap.init calls).length < UINT32_SIZE) :
    (issued UFDMap.init calls).Pairwise (fun a b => a < b) ∧
    ∀ (before : List Call) (fd : Slot),
      calls = before ++ [Call.release fd, Call.identityOf fd] →
      (step (run UFDMap.init before) (Call.release fd)).1 <
        (step (run UFDMap.init (before ++ [Call.release fd])) (Call.identityOf fd)).1 := by
  constructor
  · have e := issued_eq_map_range calls UFDMap.init (by decide)
    generalize (issued UFDMap.init calls).length = n at e h
    rw [e, List.pairwise_map]
    refine (List.pairwise_lt_range n).imp_of_mem ?_
    intro a b ha hb hab
    have ha2 := List.mem_range.mp ha
    have hb2 := List.mem_range.mp hb
    simp only [UFDMap.init, UINT32_SIZE] at h ⊢
    omega
  · intro before fd hc
    subst hc
    have hrel : allocates (run UFDMap.init before) (Call.release fd) = false := rfl
    have hz : ((run UFDMap.init before).release fd).2.map fd = 0 := by
      simp [UFDMap.release]
    have hlen : (issued UFDMap.init before).length + 1 < UINT32_SIZE := by
      have : (issued UFDMap.init (before ++ [Call.release fd, Call.identityOf fd])).length
          = (issued UFDMap.init before).length + 1 := by
        simp [issued_append, issued, allocates, step, hz]
      omega
    have hi := inv_run before UFDMap.init 0 inv_init (by omega)
    have hi2 := inv_release _ _ fd hi
    have hle := hi.slot_le fd
    have hnx : ((run UFDMap.init before).release fd).2.next
        = (issued UFDMap.init before).length + 1 := by
      rw [hi2.next_eq, Nat.zero_add]; exact Nat.mod_eq_of_lt hlen
    have hrun : run UFDMap.init (before ++ [Call.release fd])
        = ((run UFDMap.init before).release fd).2 := by
      simp [run_append, run, step]
    rw [hrun]
    simp only [step, identityOf_unassigned _ fd hz, hnx]
    show (run UFDMap.init before).map fd < _
    omega

theorem C1_issued_strictly_increasing_witness :
    (issued UFDMap.init [Call.identityOf 3, Call.release 3, Call.identityOf 3]).length
        < UINT32_SIZE ∧
    ((issued UFDMap.init [Call.identityOf 3, Call.release 3, Call.identityOf 3]).Pairwise
        (fun a b => a < b) ∧
      ∀ (before : List Call) (fd : Slot),
        [Call.identityOf 3, Call.release 3, Call.identityOf 3]
          = before ++ [Call.release fd, Call.identityOf fd] →
        (step (run UFDMap.init before) (Call.release fd)).1 <
          (step (run UFDMap.init (before ++ [Call.release fd])) (Call.identityOf fd)).1) :=
  ⟨by decide, C1_issued_strictly_increasing _ (by decide)⟩

/-! ## C2: uniqueness among assigned slots -/

theorem run_clashCalls :
    run UFDMap.init clashCalls =
      { next := 2, map := Function.update (Function.update (fun _ => 0) 0 1) 1 1 } := by
  have h1 : run UFDMap.init [Call.identityOf 0]
      = { next := 2, map := Function.update (fun _ => 0) 0 1 } := by
    simp [run, step, UFDMap.identityOf, UFDMap.init, UINT32_SIZE]
  rw [clashCalls, run_append, run_append, h1,
    run_churn 1 4294967295 _ (by simp [Function.update]) (by decide)]
  simp [run, step, UFDMap.identityOf, Function.update, UINT32_SIZE]

/-- The call sequence `clashCalls` issues `2 ^ 32 + 1` fresh identities. -/
theorem issued_clashCalls_length :
    (issued UFDMap.init clashCalls).length = 4294967297 := by
  have h1 : run UFDMap.init [Call.identityOf 0]
      = { next := 2, map := Function.update (fun _ => 0) 0 1 } := by
    simp [run, step, UFDMap.identityOf, UFDMap.init, UINT32_SIZE]
  have hz : (Function.update (fun _ => 0) 0 1 : Slot → Nat) 1 = 0 := by
    simp [Function.update]
  have e1 : (issued UFDMap.init [Call.identityOf 0]).length = 1 := by decide
  have e2 : (issued (run UFDMap.init [Call.identityOf 0]) (churn 1 4294967295)).length
      = 4294967295 := by
    rw [h1]
    exact issued_churn_length 1 4294967295 _ hz
  have e3 : (issued (run UFDMap.init ([Call.identityOf 0] ++ churn 1 4294967295))
      [Call.identityOf 1]).length = 1 := by
    rw [run_append, h1, run_churn 1 4294967295 _ hz (by decide)]
    simp [issued, allocates, hz]
  have e : issued UFDMap.init clashCalls =
      issued UFDMap.init [Call.identityOf 0] ++
        issued (run UFDMap.init [Call.identityOf 0]) (churn 1 4294967295) ++
        issued (run UFDMap.init ([Call.identityOf 0] ++ churn 1 4294967295))
          [Call.identityOf 1] := by
    rw [clashCalls, issued_append, issued_append]
  rw [e, List.length_append, List.length_append, e1, e2, e3]

/-- C2, as stated, fails: after `clashCalls` the distinct slots `0` and `1` both
hold the non-zero identity `1`. -/
theorem C2_clash_after_wrap :
    (0 : Slot) ≠ 1 ∧
    (run UFDMap.init clashCalls).map 0 ≠ 0 ∧
    (run UFDMap.init clashCalls).map 1 ≠ 0 ∧
    (run UFDMap.init clashCalls).map 0 = (run UFDMap.init clashCalls).map 1 := by
  rw [run_clashCalls]
  simp [Function.update]

/-- A release keeps assigned slots pairwise different. -/
theorem distinct_release (s : UFDMap) (fd : Slot)
    (hd : ∀ i j : Slot, i ≠ j → s.map i ≠ 0 → s.map i ≠ s.map j) :
    ∀ i j : Slot, i ≠ j → (s.release fd).2.map i ≠ 0 →
      (s.release fd).2.map i ≠ (s.release fd).2.map j := by
  intro i j hij hi
  by_cases e : i = fd
  · subst e; simp [UFDMap.release] at hi
  · have hi2 : s.map i ≠ 0 := by
      simpa [UFDMap.release, Function.update_noteq e] using hi
    by_cases e2 : j = fd
    · subst e2
      simpa [UFDMap.release, Function.update_noteq e] using hi2
    · simpa [UFDMap.release, Function.update_noteq e, Function.update_noteq e2]
        using hd i j hij hi2

/-- Calls that allocate nothing keep assigned slots pairwise different,
whatever the counter is. -/
theorem distinct_run_of_no_allocation (calls : List Call) (s : UFDMap)
    (hd : ∀ i j : Slot, i ≠ j → s.map i ≠ 0 → s.map i ≠ s.map j)
    (h0 : (issued s calls).length = 0) :
    ∀ i j : Slot, i ≠ j → (run s calls).map i ≠ 0 →
      (run s calls).map i ≠ (run s calls).map j := by
  induction calls generalizing s with
  | nil => simpa [run] using hd
  | cons c cs ih =>
    cases c with
    | identityOf fd =>
      by_cases hz : s.map fd = 0
      · have ha : allocates s (Call.identityOf fd) = true := by simp [allocates, hz]
        simp [issued, ha] at h0
      · have ha : allocates s (Call.identityOf fd) = false := by simp [allocates, hz]
        have e : (s.identityOf fd).2 = s := by rw [identityOf_assigned s fd hz]
        simp only [issued, ha, Bool.false_eq_true, if_false, step, e] at h0
        simpa [run, step, e] using ih s hd h0
    | release fd =>
      have ha : allocates s (Call.release fd) = false := rfl
      simp only [issued, ha, Bool.false_eq_true, if_false, step] at h0
      simpa [run, step] using ih (s.release fd).2 (distinct_release s fd hd) h0

/-- Assigned slots stay pairwise different up to and including the `2 ^ 32`-th
fresh allocation: that allocation finds the counter at `0` and so leaves its
slot unassigned. -/
theorem distinct_run (calls : List Call) (s : UFDMap) (n : Nat) (h : Inv s n)
    (hn : n + (issued s calls).length ≤ UINT32_SIZE) :
    ∀ i j : Slot, i ≠ j → (run s calls).map i ≠ 0 →
      (run s calls).map i ≠ (run s calls).map j := by
  induction calls generalizing s n with
  | nil => simpa [run] using h.distinct
  | cons c cs ih =>
    cases c with
    | identityOf fd =>
      by_cases hz : s.map fd = 0
      · have ha : allocates s (Call.identityOf fd) = true := by simp [allocates, hz]
        simp only [issued, ha, if_true, List.length_cons, step] at hn
        by_cases hlt : n + 1 < UINT32_SIZE
        · have h1 := inv_allocate s n fd h hz hlt
          simpa [run, step] using ih (s.identityOf fd).2 (n + 1) h1 (by omega)
        · have hb := h.bound
          have hnext : s.next = 0 := by
            rw [h.next_eq]
            have : n + 1 = UINT32_SIZE := by omega
            rw [this]
            exact Nat.mod_self _
          have hmap : (s.identityOf fd).2.map = s.map := by
            rw [identityOf_unassigned s fd hz, hnext]
            show Function.update s.map fd 0 = s.map
            rw [← hz, Function.update_eq_self]
          have hd : ∀ i j : Slot, i ≠ j → (s.identityOf fd).2.map i ≠ 0 →
              (s.identityOf fd).2.map i ≠ (s.identityOf fd).2.map j := by
            rw [hmap]; exact h.distinct
          simpa [run, step] using
            distinct_run_of_no_allocation cs (s.identityOf fd).2 hd (by omega)
      · have ha : allocates s (Call.identityOf fd) = false := by simp [allocates, hz]
        have e : (s.identityOf fd).2 = s := by rw [identityOf_assigned s fd hz]
        simp only [issued, ha, Bool.false_eq_true, if_false, step, e] at hn
        simpa [run, step, e] using ih s n h hn
    | release fd =>
      have ha : allocates s (Call.release fd) = false := rfl
      simp only [issued, ha, Bool.false_eq_true, if_false, step] at hn
      simpa [run, step] using ih (s.release fd).2 n (inv_release s n fd h) hn

/-- C2, amended: in every state reached from the initial map by a call
sequence that issues at most `2 ^ 32` fresh identities, two distinct slots
that both hold a non-zero identity hold different identities. (The clash of
`clashCalls` takes `2 ^ 32 + 1` fresh identities.) -/
theorem C2_open_identities_distinct (calls : List Call)
    (h : (issued UFDMap.init calls).length ≤ UINT32_SIZE) (i j : Slot) (hij : i ≠ j)
    (hi : (run UFDMap.init calls).map i ≠ 0) (_hj : (run UFDMap.init calls).map j ≠ 0) :
    (run UFDMap.init calls).map i ≠ (run UFDMap.init calls).map j :=
  distinct_run calls UFDMap.init 0 inv_init (by omega) i j hij hi

theorem C2_open_identities_distinct_witness :
    (run UFDMap.init [Call.identityOf 4, Call.identityOf 7, Call.release 4,
        Call.identityOf 4]).map 4 ≠
      (run UFDMap.init [Call.identityOf 4, Call.identityOf 7, Call.release 4,
        Call.identityOf 4]).map 7 :=
  C2_open_identities_distinct _ (by decide) 4 7 (by decide) (by decide) (by decide)

/-! ## C3: the value returned by a lookup -/

/-- C3, as stated, fails: after `2 ^ 32 - 1` rounds of `identityOf 0; release 0`
from the initial map the counter has wrapped to `0`, and the next lookup of
descriptor `0` returns `0`. -/
theorem C3_lookup_returns_zero_after_wrap :
    ((run UFDMap.init (churn 0 4294967295)).identityOf 0).1 = 0 := by
  rw [run_churn 0 4294967295 UFDMap.init rfl (by decide)]
  simp [UFDMap.identityOf, UFDMap.init, UINT32_SIZE]

/-- C3, amended: in every state reached from the initial map by a call
sequence that issued fewer than `2 ^ 32 - 1` fresh identities, a lookup of any
in-range descriptor returns a value different from `0`. -/
theorem C3_lookup_nonzero (calls : List Call)
    (h : (issued UFDMap.init calls).length + 1 < UINT32_SIZE) (fd : Slot) :
    ((run UFDMap.init calls).identityOf fd).1 ≠ 0 := by
  have hi := inv_run calls UFDMap.init 0 inv_init (by omega)
  by_cases h0 : (run UFDMap.init calls).map fd = 0
  · rw [identityOf_unassigned _ fd h0]
    show (run UFDMap.init calls).next ≠ 0
    rw [hi.next_eq, Nat.zero_add, Nat.mod_eq_of_lt h]
    omega
  · rw [identityOf_assigned _ fd h0]
    exact h0

theorem C3_lookup_nonzero_witness :
    ((run UFDMap.init [Call.identityOf 2, Call.release 2]).identityOf 2).1 ≠ 0 :=
  C3_lookup_nonzero [Call.identityOf 2, Call.release 2] (by decide) 2

/-! ## C4: descriptors outside the array -/

theorem toSlot_none (fd : Int) (h : fd < 0 ∨ (MAX_OPEN_FILES : Int) ≤ fd) :
    toSlot fd = none := by
  unfold toSlot
  rw [dif_neg]
  omega

theorem toSlot_some (fd : Int) (h : 0 ≤ fd ∧ fd < (MAX_OPEN_FILES : Int)) :
    ∃ i : Slot, toSlot fd = some i ∧ (i.val : Int) = fd := by
  unfold toSlot
  rw [dif_pos h]
  exact ⟨_, rfl, Int.toNat_of_nonneg h.1⟩

theorem del_of_inRange (s : UFDMap) (fd : Int)
    (h : 0 ≤ fd ∧ fd < (MAX_OPEN_FILES : Int)) :
    ∃ i : Slot, (i.val : Int) = fd ∧
      s.del fd = Outcome.returns (s.release i).1 (s.release i).2 := by
  obtain ⟨i, hi, hv⟩ := toSlot_some fd h
  exact ⟨i, hv, by simp [UFDMap.del, hi]⟩

/-- C4, as stated, fails: on the initial map, neither `operator[](-1)` nor
`operator[](1024)` ends with an out-of-range error; the code has no range test
and both are out-of-bounds accesses of `map`. -/
theorem C4_no_range_error :
    UFDMap.init.index (-1) ≠ Outcome.throws Exception.out_of_range UFDMap.init ∧
    UFDMap.init.index 1024 ≠ Outcome.throws Exception.out_of_range UFDMap.init ∧
    UFDMap.init.index (-1) = Outcome.undefined ∧
    UFDMap.init.index 1024 = Outcome.undefined := by
  have e1 : UFDMap.init.index (-1) = Outcome.undefined := by
    simp [UFDMap.index, toSlot_none (-1) (by decide)]
  have e2 : UFDMap.init.index 1024 = Outcome.undefined := by
    simp [UFDMap.index, toSlot_none 1024 (by decide)]
  refine ⟨?_, ?_, e1, e2⟩
  · rw [e1]; intro h; cases h
  · rw [e2]; intro h; cases h

/-- C4, amended: `operator[]` makes no range test. For every `rawFd` that is
negative or not below `MAX_OPEN_FILES` the call is an unchecked out-of-bounds
access of `map` (undefined behaviour) and in no state does it end with an
error; for every `rawFd` in `[0, MAX_OPEN_FILES)` it returns the result of
lookup-or-allocate on that slot. -/
theorem C4_unchecked_index (s : UFDMap) (rawFd : Int) :
    (∀ e s1, s.index rawFd ≠ Outcome.throws e s1) ∧
    ((rawFd < 0 ∨ (MAX_OPEN_FILES : Int) ≤ rawFd) → s.index rawFd = Outcome.undefined) ∧
    ((0 ≤ rawFd ∧ rawFd < (MAX_OPEN_FILES : Int)) →
      ∃ i : Slot, (i.val : Int) = rawFd ∧
        s.index rawFd = Outcome.returns (s.identityOf i).1 (s.identityOf i).2) := by
  refine ⟨?_, ?_, ?_⟩
  · intro e s1 h
    unfold UFDMap.index at h
    cases ht : toSlot rawFd with
    | none => rw [ht] at h; cases h
    | some i => rw [ht] at h; cases h
  · intro h
    simp [UFDMap.index, toSlot_none rawFd h]
  · intro h
    obtain ⟨i, hi, hv⟩ := toSlot_some rawFd h
    exact ⟨i, hv, by simp [UFDMap.index, hi]⟩

/-! ## C5: lookup-or-allocate -/

/-- C5: postcondition of `operator[]` on an in-range `fd`. If slot `fd` holds a
non-zero identity, that value is returned, the state is unchanged and a second
lookup returns the same identity. If slot `fd` holds `0`, the current counter
value is returned and stored in slot `fd`, the counter is incremented by one
(`next++` in 32-bit unsigned arithmetic, which is `next + 1` whenever that
fits in 32 bits), and every other slot is unchanged. -/
theorem C5_lookup_or_allocate (s : UFDMap) (fd : Slot) :
    (s.map fd ≠ 0 →
      (s.identityOf fd).1 = s.map fd ∧
      (s.identityOf fd).2 = s ∧
      ((s.identityOf fd).2.identityOf fd).1 = (s.identityOf fd).1) ∧
    (s.map fd = 0 →
      (s.identityOf fd).1 = s.next ∧
      (s.identityOf fd).2.map fd = s.next ∧
      (s.identityOf fd).2.next = (s.next + 1) % UINT32_SIZE ∧
      (s.next + 1 < UINT32_SIZE → (s.identityOf fd).2.next = s.next + 1) ∧
      ∀ j : Slot, j ≠ fd → (s.identityOf fd).2.map j = s.map j) := by
  constructor
  · intro h
    rw [identityOf_assigned s fd h]
    exact ⟨rfl, rfl, by rw [identityOf_assigned s fd h]⟩
  · intro h
    rw [identityOf_unassigned s fd h]
    refine ⟨rfl, by simp, rfl, fun hlt => Nat.mod_eq_of_lt hlt, ?_⟩
    intro j hj
    simp [Function.update_noteq hj]

/-- C5 on the initial map: the first lookup of descriptor `3` allocates
identity `1` and moves the counter to `2`; the second lookup returns `1` again
and changes nothing. -/
theorem C5_lookup_or_allocate_witness :
    (UFDMap.init.identityOf 3).1 = 1 ∧
    (UFDMap.init.identityOf 3).2.next = 2 ∧
    ((UFDMap.init.identityOf 3).2.identityOf 3).1 = 1 ∧
    ((UFDMap.init.identityOf 3).2.identityOf 3).2 = (UFDMap.init.identityOf 3).2 :=
  have h0 := (C5_lookup_or_allocate UFDMap.init 3).2 rfl
  have h1 := (C5_lookup_or_allocate (UFDMap.init.identityOf 3).2 3).1 (by decide)
  ⟨h0.1, h0.2.2.2.1 (by decide), by rw [h1.1]; decide, h1.2.1⟩

/-! ## C6: the sequence of issued identities -/

/-- C6, as stated, fails: in `wrapCalls` the `2 ^ 32`-th lookup that allocates
a fresh identity (index `2 ^ 32 - 1` counting from `0`) returns `0`, not
`2 ^ 32`. -/
theorem C6_wrapped_allocation_returns_zero :
    (issued UFDMap.init wrapCalls)[4294967295]? = some 0 ∧
    (issued UFDMap.init wrapCalls)[4294967295]? ≠ some 4294967296 := by
  have e : issued UFDMap.init wrapCalls
      = issued UFDMap.init (churn 0 4294967295) ++ [0] := by
    rw [wrapCalls, issued_append, run_churn 0 4294967295 UFDMap.init rfl (by decide)]
    congr 1
  have hl := issued_churn_length 0 4294967295 UFDMap.init rfl
  have e2 : (issued UFDMap.init wrapCalls)[4294967295]? = some 0 := by
    rw [e, List.getElem?_append_right (by omega), hl]
    simp
  exact ⟨e2, by rw [e2]; simp⟩

/-- C6, amended: along every call sequence from the initial map, the `k`-th
lookup that allocates a fresh identity returns `k` modulo `2 ^ 32`, hence
exactly `k` for every `k` below `2 ^ 32`, whatever releases and repeated
lookups are interleaved (here `k = i + 1` for the list index `i`); the first
identity ever issued is `1`. -/
theorem C6_gap_free_modulo (calls : List Call) (i : Nat)
    (hi : i < (issued UFDMap.init calls).length) :
    (issued UFDMap.init calls)[i] = (i + 1) % UINT32_SIZE ∧
    (i + 1 < UINT32_SIZE → (issued UFDMap.init calls)[i] = i + 1) ∧
    (issued UFDMap.init calls)[0]? = some 1 := by
  have e := issued_getElem calls UFDMap.init (by decide) i hi
  have e1 : (issued UFDMap.init calls)[i] = (i + 1) % UINT32_SIZE := by
    rw [e, Nat.add_comm]; rfl
  refine ⟨e1, fun h => by rw [e1, Nat.mod_eq_of_lt h], ?_⟩
  have h0 : 0 < (issued UFDMap.init calls).length := by omega
  rw [List.getElem?_eq_getElem h0,
    issued_getElem calls UFDMap.init (by decide) 0 h0]
  rfl

theorem C6_gap_free_modulo_witness :
    (issued UFDMap.init [Call.identityOf 9, Call.identityOf 9, Call.release 9,
        Call.identityOf 5, Call.identityOf 9])[2]? = some 3 := by
  have h := C6_gap_free_modulo [Call.identityOf 9, Call.identityOf 9, Call.release 9,
    Call.identityOf 5, Call.identityOf 9] 2 (by decide)
  rw [List.getElem?_eq_getElem (by decide), h.1]
  rfl

/-! ## C7: the counter under a single call -/

/-- C7, as stated, fails: `maxCounterState` holds only 32-bit values, is reached
from the initial map by `2 ^ 32 - 2` rounds of `identityOf 0; release 0`, and
the lookup of descriptor `0` takes its counter from `2 ^ 32 - 1` to `0`. -/
theorem C7_counter_wraps :
    maxCounterState.WellFormed ∧
    run UFDMap.init (churn 0 4294967294) = maxCounterState ∧
    maxCounterState.next = 4294967295 ∧
    (step maxCounterState (Call.identityOf 0)).2.next = 0 ∧
    ¬ maxCounterState.next ≤ (step maxCounterState (Call.identityOf 0)).2.next := by
  have hz : (0 : Nat) < UINT32_SIZE := by decide
  have hr : run UFDMap.init (churn 0 4294967294) = maxCounterState := by
    rw [run_churn 0 4294967294 UFDMap.init rfl (by decide)]
    rfl
  exact ⟨⟨by decide, fun _ => hz⟩, hr, rfl, by decide, by decide⟩

/-- C7, amended: for every state and every single call on an in-range
descriptor, the counter afterwards is greater than or equal to the counter
before, provided the call does not allocate or the counter is below the
largest 32-bit value `2 ^ 32 - 1`. -/
theorem C7_counter_never_decreases (s : UFDMap) (c : Call)
    (h : allocates s c = false ∨ s.next + 1 < UINT32_SIZE) :
    s.next ≤ (step s c).2.next := by
  by_cases ha : allocates s c = true
  · have hlt : s.next + 1 < UINT32_SIZE := by
      rcases h with h | h
      · rw [ha] at h; cases h
      · exact h
    rw [(step_allocates s c ha).2, Nat.mod_eq_of_lt hlt]
    omega
  · have ha2 : allocates s c = false := by simpa using ha
    rw [step_not_allocates s c ha2]

theorem C7_counter_never_decreases_witness :
    UFDMap.init.next ≤ (step UFDMap.init (Call.identityOf 0)).2.next ∧
    maxCounterState.next ≤ (step maxCounterState (Call.release 0)).2.next :=
  ⟨C7_counter_never_decreases UFDMap.init (Call.identityOf 0) (Or.inr (by decide)),
   C7_counter_never_decreases maxCounterState (Call.release 0) (Or.inl rfl)⟩

/-! ## C8: release -/

/-- C8: for every state and every in-range `fd`, `del(fd)` returns the value
stored in slot `fd` before the call, slot `fd` is `0` afterwards, and the
counter and every other slot are unchanged. -/
theorem C8_release_postcondition (s : UFDMap) (fd : Slot) :
    (s.release fd).1 = s.map fd ∧
    (s.release fd).2.map fd = 0 ∧
    (s.release fd).2.next = s.next ∧
    ∀ j : Slot, j ≠ fd → (s.release fd).2.map j = s.map j := by
  refine ⟨rfl, by simp [UFDMap.release], rfl, ?_⟩
  intro j hj
  simp [UFDMap.release, Function.update_noteq hj]

/-- C8 after one lookup: releasing descriptor `3` returns its identity `1`,
clears the slot and keeps the counter at `2`. -/
theorem C8_release_postcondition_witness :
    ((UFDMap.init.identityOf 3).2.release 3).1 = 1 ∧
    ((UFDMap.init.identityOf 3).2.release 3).2.map 3 = 0 ∧
    ((UFDMap.init.identityOf 3).2.release 3).2.next = 2 :=
  have h := C8_release_postcondition (UFDMap.init.identityOf 3).2 3
  ⟨by rw [h.1]; decide, h.2.1, by rw [h.2.2.1]; decide⟩

/-! ## C9: releasing an unassigned descriptor -/

theorem slot_zero_of_not_lookedUpSince (fd : Slot) (calls : List Call) (b : Bool)
    (s : UFDMap) (hs : b = false → s.map fd = 0)
    (h : lookedUpSince fd b calls = false) : (run s calls).map fd = 0 := by
  induction calls generalizing s b with
  | nil => exact hs h
  | cons c cs ih =>
    cases c with
    | identityOf g =>
      refine ih (b || decide (g = fd)) (s.identityOf g).2 ?_ h
      intro hb
      have hb1 : b = false := by
        cases b
        · rfl
        · simp at hb
      have hg : g ≠ fd := by
        intro e; subst e; simp at hb
      have h0 := hs hb1
      by_cases hz : s.map g = 0
      · rw [identityOf_unassigned s g hz]
        simpa [Function.update_noteq (Ne.symm hg)] using h0
      · rw [identityOf_assigned s g hz]
        exact h0
    | release g =>
      refine ih (b && !decide (g = fd)) (s.release g).2 ?_ h
      intro hb
      by_cases hg : g = fd
      · subst hg; simp [UFDMap.release]
      · have hb1 : b = false := by simpa [hg] using hb
        simpa [UFDMap.release, Function.update_noteq (Ne.symm hg)] using hs hb1

/-- C9: after every call sequence from the initial map, for every in-range
`fd` with no lookup pending (never looked up since the start, or not since its
last release), `del(fd)` returns `0` and leaves the whole state unchanged. -/
theorem C9_release_unassigned (calls : List Call) (fd : Slot)
    (h : lookedUp fd calls = false) :
    (run UFDMap.init calls).release fd = (0, run UFDMap.init calls) :=
  release_unassigned _ fd
    (slot_zero_of_not_lookedUpSince fd calls false UFDMap.init (fun _ => rfl) h)

theorem C9_release_unassigned_witness :
    lookedUp 3 [Call.identityOf 3, Call.release 3, Call.identityOf 5] = false ∧
    (run UFDMap.init [Call.identityOf 3, Call.release 3, Call.identityOf 5]).release 3
      = (0, run UFDMap.init [Call.identityOf 3, Call.release 3, Call.identityOf 5]) :=
  ⟨by decide, C9_release_unassigned _ 3 (by decide)⟩

/-! ## C10: generation records of `open` -/

theorem int_eq_zero_iff_testBit (x : Int) : x = 0 ↔ ∀ k, Int.testBit x k = false := by
  constructor
  · intro h k
    subst h
    exact Nat.zero_testBit k
  · intro h
    cases x with
    | ofNat n =>
      have hn : n = 0 := Nat.eq_of_testBit_eq (fun i => by
        have := h i
        simpa [Int.testBit] using this)
      subst hn
      rfl
    | negSucc n =>
      have h1 := h n
      have h2 : Nat.testBit n n = false := Nat.testBit_lt_two_pow (Nat.lt_two_pow n)
      simp [Int.testBit, h2] at h1

/-- The test `flags & (O_WRONLY|O_RDWR)` succeeds exactly when `flags` has a bit
of one of the two constants. -/
theorem land_lor_ne_zero (f a b : Int) :
    Int.land f (Int.lor a b) ≠ 0 ↔ (Int.land f a ≠ 0 ∨ Int.land f b ≠ 0) := by
  simp only [ne_eq, int_eq_zero_iff_testBit, Int.testBit_land, Int.testBit_lor]
  constructor
  · intro h
    by_contra hc
    push_neg at hc
    apply h
    intro k
    have h1 := hc.1 k
    have h2 := hc.2 k
    cases hf : f.testBit k <;> simp_all
  · intro h hc
    rcases h with h | h
    · apply h
      intro k
      have := hc k
      cases hf : f.testBit k <;> simp_all
    · apply h
      intro k
      have := hc k
      cases hf : f.testBit k <;> simp_all

theorem isGenerationLine_open (ufd : Nat) (fdname : String) :
    isGenerationLine ("o:ufd" ++ toString ufd ++ ":" ++ fdname) = false := by
  simp [isGenerationLine, startsWith, String.data_append, List.isPrefixOf]

theorem isGenerationLine_used (exename fdname : String) :
    isGenerationLine ("u:" ++ exename ++ ":" ++ fdname) = false := by
  simp [isGenerationLine, startsWith, String.data_append, List.isPrefixOf]

theorem isGenerationLine_created (exename fdname : String) :
    isGenerationLine ("g:c:" ++ exename ++ ":" ++ fdname) = true := by
  simp [isGenerationLine, startsWith, String.data_append, List.isPrefixOf]

theorem isGenerationLine_truncated (exename fdname : String) :
    isGenerationLine ("g:t:" ++ exename ++ ":" ++ fdname) = true := by
  simp [isGenerationLine, startsWith, String.data_append, List.isPrefixOf]

theorem isGenerationLine_updated (exename fdname : String) :
    isGenerationLine ("g:u:" ++ exename ++ ":" ++ fdname) = true := by
  simp [isGenerationLine, startsWith, String.data_append, List.isPrefixOf]

theorem isGenerationLine_comment :
    isGenerationLine "#g:created" = false ∧ isGenerationLine "#g:truncated" = false ∧
    isGenerationLine "#g:updated" = false := by
  decide

/-- The records `open` writes before any generation record: the identity
binding and, unless `O_WRONLY` is set, the used record. -/
theorem emitOpen_split (F : Fcntl) (exename : String) (ufd : Nat) (fdname : String)
    (flags created : Int) :
    ∃ head : List String, (∀ l ∈ head, isGenerationLine l = false) ∧
      emitOpen F exename ufd fdname flags created = head ++
        (if Int.land flags (Int.lor F.O_WRONLY F.O_RDWR) ≠ 0 then
          (if created ≠ 0 then ["#g:created", "g:c:" ++ exename ++ ":" ++ fdname]
           else if Int.land flags F.O_TRUNC ≠ 0 then
             ["#g:truncated", "g:t:" ++ exename ++ ":" ++ fdname]
           else ["#g:updated", "g:u:" ++ exename ++ ":" ++ fdname])
         else []) := by
  refine ⟨["o:ufd" ++ toString ufd ++ ":" ++ fdname] ++
      (if Int.land flags F.O_WRONLY = 0 then ["u:" ++ exename ++ ":" ++ fdname] else []),
    ?_, ?_⟩
  · intro l hl
    by_cases hw : Int.land flags F.O_WRONLY = 0
    · simp only [hw, if_true, List.mem_append, List.mem_singleton] at hl
      rcases hl with hl | hl
      · rw [hl]; exact isGenerationLine_open ufd fdname
      · rw [hl]; exact isGenerationLine_used exename fdname
    · simp only [hw, if_false, List.append_nil, List.mem_singleton] at hl
      rw [hl]; exact isGenerationLine_open ufd fdname
  · unfold emitOpen
    by_cases hw : Int.land flags F.O_WRONLY = 0 <;>
    by_cases hwr : Int.land flags (Int.lor F.O_WRONLY F.O_RDWR) ≠ 0 <;>
    by_cases hc : created ≠ 0 <;>
    by_cases ht : Int.land flags F.O_TRUNC ≠ 0 <;>
    simp [hw, hwr, hc, ht]

/-- C10: for every id, name, flags and created value, `open` writes at most
one generation record (`g:c:`, `g:t:` or `g:u:`). When the descriptor is
opened for writing (`flags` has `O_WRONLY` or `O_RDWR`) it writes exactly one,
as the last record: `g:c:exe:name` if `created` is non-zero, otherwise
`g:t:exe:name` if `O_TRUNC` is set, otherwise `g:u:exe:name`, immediately
preceded by the comment record `#g:created`, `#g:truncated` or `#g:updated`
respectively; so `created` together with `O_TRUNC` gives only the created
record. When it is not opened for writing no generation record is written. -/
theorem C10_generation_line_priority (F : Fcntl) (exename : String) (ufd : Nat)
    (fdname : String) (flags created : Int) :
    (emitOpen F exename ufd fdname flags created).countP isGenerationLine ≤ 1 ∧
    (opensForWriting F flags →
      (emitOpen F exename ufd fdname flags created).countP isGenerationLine = 1 ∧
      ∃ head : List String, (∀ l ∈ head, isGenerationLine l = false) ∧
        emitOpen F exename ufd fdname flags created = head ++
          (if created ≠ 0 then ["#g:created", "g:c:" ++ exename ++ ":" ++ fdname]
           else if Int.land flags F.O_TRUNC ≠ 0 then
             ["#g:truncated", "g:t:" ++ exename ++ ":" ++ fdname]
           else ["#g:updated", "g:u:" ++ exename ++ ":" ++ fdname])) ∧
    (¬ opensForWriting F flags →
      (emitOpen F exename ufd fdname flags created).countP isGenerationLine = 0) := by
  obtain ⟨head, hhead, e⟩ := emitOpen_split F exename ufd fdname flags created
  have hcount : head.countP isGenerationLine = 0 := by
    rw [List.countP_eq_zero]
    intro l hl
    simp [hhead l hl]
  have hgen : (if created ≠ 0 then ["#g:created", "g:c:" ++ exename ++ ":" ++ fdname]
           else if Int.land flags F.O_TRUNC ≠ 0 then
             ["#g:truncated", "g:t:" ++ exename ++ ":" ++ fdname]
           else ["#g:updated", "g:u:" ++ exename ++ ":" ++ fdname]).countP
             isGenerationLine = 1 := by
    by_cases hc : created ≠ 0 <;> by_cases ht : Int.land flags F.O_TRUNC ≠ 0 <;>
    simp [hc, ht, List.countP_cons, isGenerationLine_comment, isGenerationLine_created,
      isGenerationLine_truncated, isGenerationLine_updated]
  have hw := land_lor_ne_zero flags F.O_WRONLY F.O_RDWR
  by_cases hwr : Int.land flags (Int.lor F.O_WRONLY F.O_RDWR) ≠ 0
  · rw [if_pos hwr] at e
    have h1 : (emitOpen F exename ufd fdname flags created).countP isGenerationLine = 1 := by
      rw [e, List.countP_append, hcount, hgen]
    refine ⟨by omega, fun _ => ⟨h1, head, hhead, e⟩, fun hn => absurd (hw.mp hwr) hn⟩
  · rw [if_neg hwr, List.append_nil] at e
    have h0 : (emitOpen F exename ufd fdname flags created).countP isGenerationLine = 0 := by
      rw [e, hcount]
    refine ⟨by omega, fun hwrite => absurd (hw.mpr hwrite) hwr, fun _ => h0⟩

/-- C10 on Linux flag values: `O_WRONLY|O_CREAT|O_TRUNC` (`577`) with `created`
set writes the created record only, after its comment. -/
theorem C10_generation_line_priority_witness :
    opensForWriting Fcntl.linux 577 ∧
    emitOpen Fcntl.linux "prog" 1 "/tmp/a" 577 1
      = ["o:ufd1:/tmp/a", "#g:created", "g:c:prog:/tmp/a"] ∧
    (emitOpen Fcntl.linux "prog" 1 "/tmp/a" 577 1).countP isGenerationLine = 1 :=
  have hw : opensForWriting Fcntl.linux 577 := Or.inl (by decide)
  ⟨hw, by decide,
    ((C10_generation_line_priority Fcntl.linux "prog" 1 "/tmp/a" 577 1).2.1 hw).1⟩

/-! ## C11: identity-binding and used records of `open` -/

/-- The records of `open`, part by part: the identity binding, the used record
unless `O_WRONLY` is set, and the generation records when opened for
writing. -/
theorem emitOpen_eq (F : Fcntl) (exename : String) (ufd : Nat) (fdname : String)
    (flags created : Int) :
    emitOpen F exename ufd fdname flags created =
      ["o:ufd" ++ toString ufd ++ ":" ++ fdname] ++
      (if Int.land flags F.O_WRONLY = 0 then ["u:" ++ exename ++ ":" ++ fdname] else []) ++
      (if Int.land flags (Int.lor F.O_WRONLY F.O_RDWR) ≠ 0 then
        (if created ≠ 0 then ["#g:created", "g:c:" ++ exename ++ ":" ++ fdname]
         else if Int.land flags F.O_TRUNC ≠ 0 then
           ["#g:truncated", "g:t:" ++ exename ++ ":" ++ fdname]
         else ["#g:updated", "g:u:" ++ exename ++ ":" ++ fdname])
       else []) := by
  unfold emitOpen
  by_cases hw : Int.land flags F.O_WRONLY = 0 <;>
  by_cases hwr : Int.land flags (Int.lor F.O_WRONLY F.O_RDWR) ≠ 0 <;>
  by_cases hc : created ≠ 0 <;>
  by_cases ht : Int.land flags F.O_TRUNC ≠ 0 <;>
  simp [hw, hwr, hc, ht]

/-- No generation or comment record of `open` starts with `o:` or `u:`. -/
theorem generation_part_heads (exename fdname : String) (flags created : Int)
    (F : Fcntl) (l : String)
    (hl : l ∈ (if Int.land flags (Int.lor F.O_WRONLY F.O_RDWR) ≠ 0 then
        (if created ≠ 0 then ["#g:created", "g:c:" ++ exename ++ ":" ++ fdname]
         else if Int.land flags F.O_TRUNC ≠ 0 then
           ["#g:truncated", "g:t:" ++ exename ++ ":" ++ fdname]
         else ["#g:updated", "g:u:" ++ exename ++ ":" ++ fdname])
       else [])) :
    startsWith "o:" l = false ∧ startsWith "u:" l = false := by
  have two : ∀ a b : String, l ∈ [a, b] →
      (startsWith "o:" a = false ∧ startsWith "u:" a = false) →
      (startsWith "o:" b = false ∧ startsWith "u:" b = false) →
      startsWith "o:" l = false ∧ startsWith "u:" l = false := by
    intro a b h ha hb
    simp only [List.mem_cons, List.mem_singleton, List.not_mem_nil, or_false] at h
    rcases h with h | h
    · rw [h]; exact ha
    · rw [h]; exact hb
  by_cases hwr : Int.land flags (Int.lor F.O_WRONLY F.O_RDWR) ≠ 0
  · rw [if_pos hwr] at hl
    by_cases hc : created ≠ 0
    · rw [if_pos hc] at hl
      exact two _ _ hl (by decide)
        (by simp [startsWith, String.data_append, List.isPrefixOf])
    · rw [if_neg hc] at hl
      by_cases ht : Int.land flags F.O_TRUNC ≠ 0
      · rw [if_pos ht] at hl
        exact two _ _ hl (by decide)
          (by simp [startsWith, String.data_append, List.isPrefixOf])
      · rw [if_neg ht] at hl
        exact two _ _ hl (by decide)
          (by simp [startsWith, String.data_append, List.isPrefixOf])
  · rw [if_neg hwr] at hl
    exact absurd hl (List.not_mem_nil l)

theorem startsWith_open_record (ufd : Nat) (fdname : String) :
    startsWith "o:" ("o:ufd" ++ toString ufd ++ ":" ++ fdname) = true ∧
    startsWith "u:" ("o:ufd" ++ toString ufd ++ ":" ++ fdname) = false := by
  simp [startsWith, String.data_append, List.isPrefixOf]

theorem startsWith_used_record (exename fdname : String) :
    startsWith "o:" ("u:" ++ exename ++ ":" ++ fdname) = false ∧
    startsWith "u:" ("u:" ++ exename ++ ":" ++ fdname) = true := by
  simp [startsWith, String.data_append, List.isPrefixOf]

/-- C11: for every id, name, flags and created value, the records of `open`
start with `o:ufd<id>:<name>`, which is their only `o:` record. The record
`u:<exename>:<name>` is written exactly when the `O_WRONLY` bit is clear: then
it is the second record, directly after the identity binding and before any
generation record, and the only `u:` record; when `O_WRONLY` is set there is
no `u:` record. For a write-only open that created the file the records are
exactly `o:ufd<id>:<name>`, `#g:created`, `g:c:<exename>:<name>`. -/
theorem C11_identity_and_used_records (F : Fcntl) (exename : String) (ufd : Nat)
    (fdname : String) (flags created : Int) :
    (∃ rest : List String, emitOpen F exename ufd fdname flags created =
        ("o:ufd" ++ toString ufd ++ ":" ++ fdname) :: rest) ∧
    (emitOpen F exename ufd fdname flags created).countP (startsWith "o:") = 1 ∧
    (emitOpen F exename ufd fdname flags created).countP (startsWith "u:") =
        (if Int.land flags F.O_WRONLY = 0 then 1 else 0) ∧
    (Int.land flags F.O_WRONLY = 0 →
      ∃ gen : List String,
        emitOpen F exename ufd fdname flags created =
          ["o:ufd" ++ toString ufd ++ ":" ++ fdname, "u:" ++ exename ++ ":" ++ fdname]
            ++ gen ∧
        ∀ l ∈ gen, startsWith "o:" l = false ∧ startsWith "u:" l = false) ∧
    (Int.land flags F.O_WRONLY ≠ 0 → created ≠ 0 →
      emitOpen F exename ufd fdname flags created =
        ["o:ufd" ++ toString ufd ++ ":" ++ fdname, "#g:created",
          "g:c:" ++ exename ++ ":" ++ fdname]) := by
  have e := emitOpen_eq F exename ufd fdname flags created
  have hg := generation_part_heads exename fdname flags created F
  generalize (if Int.land flags (Int.lor F.O_WRONLY F.O_RDWR) ≠ 0 then
        (if created ≠ 0 then ["#g:created", "g:c:" ++ exename ++ ":" ++ fdname]
         else if Int.land flags F.O_TRUNC ≠ 0 then
           ["#g:truncated", "g:t:" ++ exename ++ ":" ++ fdname]
         else ["#g:updated", "g:u:" ++ exename ++ ":" ++ fdname])
       else []) = gen at e hg
  have ho : gen.countP (startsWith "o:") = 0 := by
    rw [List.countP_eq_zero]
    intro l hl
    simp [(hg l hl).1]
  have hu : gen.countP (startsWith "u:") = 0 := by
    rw [List.countP_eq_zero]
    intro l hl
    simp [(hg l hl).2]
  have h1 := startsWith_open_record ufd fdname
  have h2 := startsWith_used_record exename fdname
  refine ⟨?_, ?_, ?_, ?_, ?_⟩
  · exact ⟨_, by rw [e]; rfl⟩
  · rw [e]
    by_cases hw : Int.land flags F.O_WRONLY = 0
    · simp [hw, List.countP_append, List.countP_cons, h1.1, h2.1, ho]
    · simp [hw, List.countP_append, List.countP_cons, h1.1, ho]
  · rw [e]
    by_cases hw : Int.land flags F.O_WRONLY = 0
    · simp [hw, List.countP_append, List.countP_cons, h1.2, h2.2, hu]
    · simp [hw, List.countP_append, List.countP_cons, h1.2, hu]
  · intro hw
    exact ⟨gen, by rw [e]; simp [hw], hg⟩
  · intro hw hc
    have hwr : Int.land flags (Int.lor F.O_WRONLY F.O_RDWR) ≠ 0 :=
      (land_lor_ne_zero flags F.O_WRONLY F.O_RDWR).mpr (Or.inl hw)
    rw [emitOpen_eq]
    simp [hw, hwr, hc]

/-- C11 in the spec's scenario: `/tmp/a` opened write-only (Linux
`O_WRONLY|O_CREAT`, `65`) and created, with id `1` and executable `prog`. -/
theorem C11_identity_and_used_records_witness :
    emitOpen Fcntl.linux "prog" 1 "/tmp/a" 65 1
      = ["o:ufd1:/tmp/a", "#g:created", "g:c:prog:/tmp/a"] := by
  rw [(C11_identity_and_used_records Fcntl.linux "prog" 1 "/tmp/a" 65 1).2.2.2.2
    (by decide) (by decide)]
  decide

/-! ## Fields of a `w:` record -/

theorem digitChar_ne_colon (n : Nat) (h : n < 10) : Nat.digitChar n ≠ ':' := by
  interval_cases n <;> decide

theorem toDigitsCore_no_colon (fuel n : Nat) (ds : List Char) (h : ':' ∉ ds) :
    ':' ∉ Nat.toDigitsCore 10 fuel n ds := by
  induction fuel generalizing n ds with
  | zero => simpa [Nat.toDigitsCore] using h
  | succ f ih =>
    have hd : Nat.digitChar (n % 10) ≠ ':' :=
      digitChar_ne_colon _ (Nat.mod_lt _ (by decide))
    have hcons : ':' ∉ Nat.digitChar (n % 10) :: ds := by
      simp [h, hd.symm]
    simp only [Nat.toDigitsCore]
    split
    · exact hcons
    · exact ih _ _ hcons

/-- The decimal text of an unsigned number has no colon. -/
theorem nat_toString_no_colon (n : Nat) : ':' ∉ (toString n).data := by
  show ':' ∉ Nat.toDigitsCore 10 (n + 1) n []
  exact toDigitsCore_no_colon _ _ _ (by simp)

/-- The decimal text of a signed number has no colon. -/
theorem int_toString_no_colon (i : Int) : ':' ∉ (toString i).data := by
  cases i with
  | ofNat m => exact nat_toString_no_colon m
  | negSucc m =>
    show ':' ∉ ("-" ++ toString (Nat.succ m)).data
    rw [String.data_append]
    have := nat_toString_no_colon (Nat.succ m)
    simp [this]

theorem range_type_strings_no_colon (t : RangeType) :
    ':' ∉ (range_type_strings t).data := by
  cases t <;> decide

/-- A record `w:KIND:ufdD:a:ufdS:b:c` whose `KIND` has no colon splits at its
colons into exactly these seven fields, in this order. -/
theorem fields_w_record (kind : String) (hk : ':' ∉ kind.data) (dst src : Nat)
    (a b c : Int) :
    fields ("w:" ++ kind ++ ":ufd" ++ toString dst ++ ":" ++ toString a ++
        ":ufd" ++ toString src ++ ":" ++ toString b ++ ":" ++ toString c) =
      ["w".data, kind.data, ("ufd" ++ toString dst).data, (toString a).data,
        ("ufd" ++ toString src).data, (toString b).data, (toString c).data] := by
  have hparts : ∀ l ∈ ["w".data, kind.data, ("ufd" ++ toString dst).data,
      (toString a).data, ("ufd" ++ toString src).data, (toString b).data,
      (toString c).data], ':' ∉ l := by
    intro l hl
    simp only [List.mem_cons, List.mem_singleton, List.not_mem_nil, or_false] at hl
    rcases hl with h | h | h | h | h | h | h <;> subst h
    · decide
    · exact hk
    · rw [String.data_append]
      have := nat_toString_no_colon dst
      simp [this]
    · exact int_toString_no_colon a
    · rw [String.data_append]
      have := nat_toString_no_colon src
      simp [this]
    · exact int_toString_no_colon b
    · exact int_toString_no_colon c
  have hj : ("w:" ++ kind ++ ":ufd" ++ toString dst ++ ":" ++ toString a ++
        ":ufd" ++ toString src ++ ":" ++ toString b ++ ":" ++ toString c).data =
      [':'].intercalate ["w".data, kind.data, ("ufd" ++ toString dst).data,
        (toString a).data, ("ufd" ++ toString src).data, (toString b).data,
        (toString c).data] := by
    simp [List.intercalate, List.intersperse, String.data_append]
  unfold fields
  rw [hj]
  exact List.splitOn_intercalate _ ':' hparts (List.cons_ne_nil _ _)

/-! ## C12: sequential range records -/

/-- A 64-bit signed operation whose exact result fits 64 bits gives that
result. -/
theorem wrapInt64_of_fits (x : Int) (h : fitsInt64 x) : wrapInt64 x = x := by
  unfold wrapInt64
  have h1 := h.1
  have h2 := h.2
  omega

/-- The value of a 64-bit signed operation fits 64 bits. -/
theorem fitsInt64_wrapInt64 (x : Int) : fitsInt64 (wrapInt64 x) := by
  unfold wrapInt64
  constructor <;> omega

/-- At the largest `off_t` plus one the destination offset wraps to the
smallest `off_t`, as 64-bit signed addition does. -/
theorem write_range_wraps_at_max :
    write_range 2 9223372036854775807 ⟨1, 44⟩ ⟨RangeType.SEQ, 1, 5⟩ =
      ["w:SEQ:ufd2:-9223372036854775808:ufd1:40:5"] := by
  decide

/-- C12: for every destination id, `write_begin`, record `{SEQ, start, length}`
and last source attribution `(srcId, lastOff)`, `write_range` writes exactly
one record,
`w:SEQ:ufd<ofd>:<write_begin+start>:ufd<srcId>:<lastOff-(length-1)>:<length>`,
the two computed fields being the values of the 64-bit signed expressions
`write_begin+info.start` and `last.second-(info.length-1)`; in 64-bit signed
arithmetic the source offset field plus `length-1` is `lastOff`. When
`write_begin+start`, `length-1` and `lastOff-(length-1)` fit 64 bits the fields
are exactly these integers, and the source range of `length` offsets starting
at the source offset field ends exactly at `lastOff`. -/
theorem C12_sequential_range_record (ofd : Nat) (write_begin : Int)
    (last : SourceAnchor) (start length : Int) :
    write_range ofd write_begin last ⟨RangeType.SEQ, start, length⟩ =
      ["w:SEQ:ufd" ++ toString ofd ++ ":" ++ toString (wrapInt64 (write_begin + start)) ++
        ":ufd" ++ toString last.first ++ ":" ++
          toString (wrapInt64 (last.second - wrapInt64 (length - 1))) ++
        ":" ++ toString length] ∧
    (fitsInt64 last.second →
      wrapInt64 (wrapInt64 (last.second - wrapInt64 (length - 1)) + wrapInt64 (length - 1))
        = last.second) ∧
    (fitsInt64 (write_begin + start) → fitsInt64 (length - 1) →
      fitsInt64 (last.second - (length - 1)) →
      write_range ofd write_begin last ⟨RangeType.SEQ, start, length⟩ =
        ["w:SEQ:ufd" ++ toString ofd ++ ":" ++ toString (write_begin + start) ++
          ":ufd" ++ toString last.first ++ ":" ++ toString (last.second - (length - 1)) ++
          ":" ++ toString length] ∧
      (last.second - (length - 1)) + length - 1 = last.second) := by
  have e : write_range ofd write_begin last ⟨RangeType.SEQ, start, length⟩ =
      ["w:SEQ:ufd" ++ toString ofd ++ ":" ++ toString (wrapInt64 (write_begin + start)) ++
        ":ufd" ++ toString last.first ++ ":" ++
          toString (wrapInt64 (last.second - wrapInt64 (length - 1))) ++
        ":" ++ toString length] := by
    simp only [write_range, range_type_strings]
    congr 1
  refine ⟨e, ?_, ?_⟩
  · intro h
    have h1 := h.1
    have h2 := h.2
    unfold wrapInt64
    omega
  · intro hd hl hs
    refine ⟨?_, by omega⟩
    rw [e, wrapInt64_of_fits _ hd, wrapInt64_of_fits _ hl, wrapInt64_of_fits _ hs]

/-- C12 in the spec's scenario: destination id `2`, `write_begin` `100`, start
`0`, length `5`, last source `(1, 44)`; no operation overflows. -/
theorem C12_sequential_range_record_witness :
    fitsInt64 (100 + 0) ∧ fitsInt64 (5 - 1) ∧ fitsInt64 (44 - (5 - 1)) ∧
    write_range 2 100 ⟨1, 44⟩ ⟨RangeType.SEQ, 0, 5⟩ = ["w:SEQ:ufd2:100:ufd1:40:5"] := by
  refine ⟨by decide, by decide, by decide, ?_⟩
  rw [((C12_sequential_range_record 2 100 ⟨1, 44⟩ 0 5).2.2 (by decide) (by decide)
    (by decide)).1]
  decide

/-! ## C13: `NONE` and `REP` range records, and the fields of every record -/

/-- C13: for every destination id, `write_begin`, `start`, `length` and source
anchor `(srcId, srcOff)`, `write_range` on a `NONE` or `REP` record writes
exactly one record
`w:<KIND>:ufd<ofd>:<write_begin+start>:ufd<srcId>:<srcOff>:<length>` with
`KIND` spelled `NONE` or `REP`, the destination offset the value of the 64-bit
signed expression `write_begin+info.start` (exactly `write_begin+start` when
that fits 64 bits) and the anchor offset unchanged; and for every kind the one
record written splits at its colons into exactly seven fields in the order
`w`, kind, destination id, destination offset, source id, source offset,
length. -/
theorem C13_range_record_grammar (ofd : Nat) (write_begin : Int)
    (last : SourceAnchor) (start length : Int) :
    write_range ofd write_begin last ⟨RangeType.NONE, start, length⟩ =
      ["w:NONE:ufd" ++ toString ofd ++ ":" ++ toString (wrapInt64 (write_begin + start)) ++
        ":ufd" ++ toString last.first ++ ":" ++ toString last.second ++
        ":" ++ toString length] ∧
    write_range ofd write_begin last ⟨RangeType.REP, start, length⟩ =
      ["w:REP:ufd" ++ toString ofd ++ ":" ++ toString (wrapInt64 (write_begin + start)) ++
        ":ufd" ++ toString last.first ++ ":" ++ toString last.second ++
        ":" ++ toString length] ∧
    (fitsInt64 (write_begin + start) →
      write_range ofd write_begin last ⟨RangeType.NONE, start, length⟩ =
        ["w:NONE:ufd" ++ toString ofd ++ ":" ++ toString (write_begin + start) ++
          ":ufd" ++ toString last.first ++ ":" ++ toString last.second ++
          ":" ++ toString length] ∧
      write_range ofd write_begin last ⟨RangeType.REP, start, length⟩ =
        ["w:REP:ufd" ++ toString ofd ++ ":" ++ toString (write_begin + start) ++
          ":ufd" ++ toString last.first ++ ":" ++ toString last.second ++
          ":" ++ toString length]) ∧
    ∀ kind : RangeType, ∃ line : String,
      write_range ofd write_begin last ⟨kind, start, length⟩ = [line] ∧
      fields line =
        ["w".data, (range_type_strings kind).data, ("ufd" ++ toString ofd).data,
          (toString (wrapInt64 (write_begin + start))).data,
          ("ufd" ++ toString last.first).data,
          (toString (if kind = RangeType.SEQ then
            wrapInt64 (last.second - wrapInt64 (length - 1)) else last.second)).data,
          (toString length).data] := by
  have e1 : write_range ofd write_begin last ⟨RangeType.NONE, start, length⟩ =
      ["w:NONE:ufd" ++ toString ofd ++ ":" ++ toString (wrapInt64 (write_begin + start)) ++
        ":ufd" ++ toString last.first ++ ":" ++ toString last.second ++
        ":" ++ toString length] := by
    simp only [write_range, range_type_strings]
    congr 1
  have e2 : write_range ofd write_begin last ⟨RangeType.REP, start, length⟩ =
      ["w:REP:ufd" ++ toString ofd ++ ":" ++ toString (wrapInt64 (write_begin + start)) ++
        ":ufd" ++ toString last.first ++ ":" ++ toString last.second ++
        ":" ++ toString length] := by
    simp only [write_range, range_type_strings]
    congr 1
  refine ⟨e1, e2, ?_, ?_⟩
  · intro hd
    constructor
    · rw [e1, wrapInt64_of_fits _ hd]
    · rw [e2, wrapInt64_of_fits _ hd]
  · intro kind
    cases kind
    · exact ⟨_, rfl, fields_w_record _ (range_type_strings_no_colon _) _ _ _ _ _⟩
    · exact ⟨_, rfl, fields_w_record _ (range_type_strings_no_colon _) _ _ _ _ _⟩
    · exact ⟨_, rfl, fields_w_record _ (range_type_strings_no_colon _) _ _ _ _ _⟩

/-- C13 on a repeated fill of `8` bytes at destination offset `16 + 4` from
source `(3, 7)`. -/
theorem C13_range_record_grammar_witness :
    fitsInt64 (16 + 4) ∧
    write_range 2 16 ⟨3, 7⟩ ⟨RangeType.REP, 4, 8⟩ = ["w:REP:ufd2:20:ufd3:7:8"] := by
  refine ⟨by decide, ?_⟩
  rw [((C13_range_record_grammar 2 16 ⟨3, 7⟩ 4 8).2.2.1 (by decide)).2]
  decide

/-! ## C14: the bit-set write emitter -/

/-- C14: for every origin id, destination id, `write_begin` and `length`,
`write` writes exactly one record, a `w:` record of seven fields whose length
field is the given length and whose source offset field is `0`; its kind field
is `NONE` when `length` is `1` and `REP` when `length` is `2` or more. -/
theorem C14_write_kind (ufd_origin ufd_dest : Nat) (write_begin length : Int) :
    (∃ line : String, write ufd_origin ufd_dest write_begin length = [line] ∧
      fields line =
        ["w".data, (if length > 1 then "REP" else "NONE").data,
          ("ufd" ++ toString ufd_dest).data, (toString write_begin).data,
          ("ufd" ++ toString ufd_origin).data, "0".data, (toString length).data]) ∧
    (length = 1 →
      write ufd_origin ufd_dest write_begin length =
        ["w:NONE:ufd" ++ toString ufd_dest ++ ":" ++ toString write_begin ++
          ":ufd" ++ toString ufd_origin ++ ":0:1"]) ∧
    (2 ≤ length →
      write ufd_origin ufd_dest write_begin length =
        ["w:REP:ufd" ++ toString ufd_dest ++ ":" ++ toString write_begin ++
          ":ufd" ++ toString ufd_origin ++ ":0:" ++ toString length]) := by
  refine ⟨?_, ?_, ?_⟩
  · by_cases h : length > 1
    · refine ⟨_, rfl, ?_⟩
      simp only [h, if_true]
      exact fields_w_record _ (range_type_strings_no_colon RangeType.REP) _ _ _ _ _
    · refine ⟨_, rfl, ?_⟩
      simp only [h, if_false]
      exact fields_w_record _ (range_type_strings_no_colon RangeType.NONE) _ _ _ _ _
  · intro h
    subst h
    simp only [write, range_type_strings]
    congr 1
    apply String.ext
    simp [String.data_append]
    decide
  · intro h
    have h1 : length > 1 := by omega
    simp only [write, range_type_strings, h1, if_true]
    congr 1
    apply String.ext
    simp [String.data_append]
    rfl

/-- C14 on a singleton and on a fill of three bytes. -/
theorem C14_write_kind_witness :
    write 1 2 100 1 = ["w:NONE:ufd2:100:ufd1:0:1"] ∧
    write 1 2 100 3 = ["w:REP:ufd2:100:ufd1:0:3"] := by
  have h := C14_write_kind 1 2 100 1
  have k := C14_write_kind 1 2 100 3
  exact ⟨by rw [h.2.1 rfl]; decide, by rw [k.2.2 (by decide)]; decide⟩

/-! ## C15: `exec` -/

/-- C15: for every executable name and pid, `exec` writes exactly one record,
`x:<pid>:<exename>`: the pid first, then the executable name, although the
parameters come in the order `(exename, pid)`. -/
theorem C15_exec_record (exename : String) (pid : Int) :
    exec exename pid = ["x:" ++ toString pid ++ ":" ++ exename] ∧
    (exec exename pid).length = 1 ∧
    ∀ line ∈ exec exename pid,
      line.data = "x:".data ++ (toString pid).data ++ ":".data ++ exename.data := by
  refine ⟨rfl, rfl, ?_⟩
  intro line hl
  simp only [exec, List.mem_singleton] at hl
  subst hl
  simp [String.data_append]

/-- C15 for the executable `prog` with pid `4242`. -/
theorem C15_exec_record_witness : exec "prog" 4242 = ["x:4242:prog"] := by
  rw [(C15_exec_record "prog" 4242).1]
  decide

/-! ## C16: `close` -/

/-- C16: for every id, `close` writes exactly one record, `c:ufd<id>`, and
nothing else; as a step on the globals it appends that record to
`rawProvStream` and leaves the descriptor identity map and its counter as they
were. -/
theorem C16_close_record (ufd : Nat) (g : Globals) :
    close ufd = ["c:ufd" ++ toString ufd] ∧
    (g.close ufd).rawProvStream = g.rawProvStream ++ ["c:ufd" ++ toString ufd] ∧
    (g.close ufd).ufdmap = g.ufdmap ∧
    (g.close ufd).ufdmap.next = g.ufdmap.next :=
  ⟨rfl, rfl, rfl, rfl⟩

/-- C16 after one lookup of descriptor `3` on the initial map. -/
theorem C16_close_record_witness :
    ((Globals.mk (UFDMap.init.identityOf 3).2 ["o:ufd1:/tmp/a"]).close 1).rawProvStream
      = ["o:ufd1:/tmp/a", "c:ufd1"] ∧
    ((Globals.mk (UFDMap.init.identityOf 3).2 ["o:ufd1:/tmp/a"]).close 1).ufdmap.next = 2 := by
  have h := C16_close_record 1 (Globals.mk (UFDMap.init.identityOf 3).2 ["o:ufd1:/tmp/a"])
  exact ⟨by rw [h.2.1]; decide, by rw [h.2.2.2]; decide⟩

/-! ## C17: the map before the counter wraps -/

/-- C17: after every call sequence from the initial map in which fewer than
`2 ^ 32 - 1` fresh identities have been allocated, the counter equals `1` plus
the number of fresh allocations made so far, every slot value (so every
non-zero one) is strictly less than the counter, and a lookup of any in-range
descriptor returns a non-zero identity. -/
theorem C17_bounded_allocation (calls : List Call)
    (h : (issued UFDMap.init calls).length + 1 < UINT32_SIZE) :
    (run UFDMap.init calls).next = 1 + (issued UFDMap.init calls).length ∧
    (∀ i : Slot, (run UFDMap.init calls).map i < (run UFDMap.init calls).next) ∧
    ∀ fd : Slot, ((run UFDMap.init calls).identityOf fd).1 ≠ 0 := by
  have hi := inv_run calls UFDMap.init 0 inv_init (by omega)
  have hnext : (run UFDMap.init calls).next = 1 + (issued UFDMap.init calls).length := by
    rw [hi.next_eq, Nat.zero_add, Nat.mod_eq_of_lt h, Nat.add_comm]
  refine ⟨hnext, ?_, ?_⟩
  · intro i
    have := hi.slot_le i
    omega
  · intro fd
    by_cases h0 : (run UFDMap.init calls).map fd = 0
    · rw [identityOf_unassigned _ fd h0]
      show (run UFDMap.init calls).next ≠ 0
      omega
    · rw [identityOf_assigned _ fd h0]
      exact h0

theorem C17_bounded_allocation_witness :
    (issued UFDMap.init [Call.identityOf 6, Call.release 6, Call.identityOf 8]).length + 1
        < UINT32_SIZE ∧
    (run UFDMap.init [Call.identityOf 6, Call.release 6, Call.identityOf 8]).next = 3 ∧
    ((run UFDMap.init [Call.identityOf 6, Call.release 6, Call.identityOf 8]).identityOf
        6).1 ≠ 0 :=
  have h := C17_bounded_allocation
    [Call.identityOf 6, Call.release 6, Call.identityOf 8] (by decide)
  ⟨by decide, by rw [h.1]; decide, h.2.2 6⟩

/-! ## C18: read-only opens -/

/-- C18: for every id, name and created value, and every flags value with
neither `O_WRONLY` nor `O_RDWR` set, `open` writes exactly the two records
`o:ufd<id>:<name>` and `u:<exename>:<name>`; none of them is a generation
record or starts with `#`, whatever `created` and the `O_TRUNC` bit are. -/
theorem C18_read_only_open (F : Fcntl) (exename : String) (ufd : Nat)
    (fdname : String) (flags created : Int)
    (hw : Int.land flags F.O_WRONLY = 0) (hrw : Int.land flags F.O_RDWR = 0) :
    emitOpen F exename ufd fdname flags created =
      ["o:ufd" ++ toString ufd ++ ":" ++ fdname, "u:" ++ exename ++ ":" ++ fdname] ∧
    ∀ l ∈ emitOpen F exename ufd fdname flags created,
      isGenerationLine l = false ∧ startsWith "#" l = false := by
  have hwr : ¬ Int.land flags (Int.lor F.O_WRONLY F.O_RDWR) ≠ 0 := by
    intro hne
    rcases (land_lor_ne_zero flags F.O_WRONLY F.O_RDWR).mp hne with h | h
    · exact h hw
    · exact h hrw
  have e : emitOpen F exename ufd fdname flags created =
      ["o:ufd" ++ toString ufd ++ ":" ++ fdname, "u:" ++ exename ++ ":" ++ fdname] := by
    rw [emitOpen_eq]
    simp [hw, hwr]
  refine ⟨e, ?_⟩
  intro l hl
  rw [e] at hl
  simp only [List.mem_cons, List.mem_singleton, List.not_mem_nil, or_false] at hl
  rcases hl with hl | hl
  · subst hl
    exact ⟨isGenerationLine_open ufd fdname,
      by simp [startsWith, String.data_append, List.isPrefixOf]⟩
  · subst hl
    exact ⟨isGenerationLine_used exename fdname,
      by simp [startsWith, String.data_append, List.isPrefixOf]⟩

/-- C18 on Linux flag values: `O_RDONLY|O_TRUNC` (`512`) with `created` set
writes only the identity binding and the used record. -/
theorem C18_read_only_open_witness :
    Int.land 512 Fcntl.linux.O_WRONLY = 0 ∧ Int.land 512 Fcntl.linux.O_RDWR = 0 ∧
    emitOpen Fcntl.linux "prog" 7 "/etc/passwd" 512 1
      = ["o:ufd7:/etc/passwd", "u:prog:/etc/passwd"] := by
  refine ⟨by decide, by decide, ?_⟩
  rw [(C18_read_only_open Fcntl.linux "prog" 7 "/etc/passwd" 512 1
    (by decide) (by decide)).1]
  decide

/-! ## C19: releasing twice -/

/-- C19: for every state and every in-range `fd`, the second of two `del(fd)`
calls in a row returns `0`, and the state after it equals the state after the
first. -/
theorem C19_release_idempotent (s : UFDMap) (fd : Slot) :
    ((s.release fd).2.release fd).1 = 0 ∧
    ((s.release fd).2.release fd).2 = (s.release fd).2 := by
  have hz : (s.release fd).2.map fd = 0 := by simp [UFDMap.release]
  rw [release_unassigned _ fd hz]
  exact ⟨rfl, rfl⟩

/-- C19 on a descriptor holding identity `1`: the first release returns `1`,
the second returns `0` and changes nothing. -/
theorem C19_release_idempotent_witness :
    ((UFDMap.init.identityOf 5).2.release 5).1 = 1 ∧
    (((UFDMap.init.identityOf 5).2.release 5).2.release 5).1 = 0 ∧
    (((UFDMap.init.identityOf 5).2.release 5).2.release 5).2
      = ((UFDMap.init.identityOf 5).2.release 5).2 :=
  have h := C19_release_idempotent (UFDMap.init.identityOf 5).2 5
  ⟨by decide, h.1, h.2⟩

end PROVLOG
